import Mathlib

/-!
Verification development for the TravelBuddy multi-agent travel planner
(`travelbuddy.py`).  The Python program is shallowly embedded: place records
become a fixed-field structure, insertion-ordered Python dicts become
association lists with dict-assignment semantics, calendar dates become
integer day numbers (ISO date strings are in bijection with them), and the
Python object heap of mutable preference dictionaries is made explicit as a
list of cells addressed by allocation index, which is needed to capture
reference sharing between a session and its trip records.
-/

namespace TravelBuddy

/-- A place record as returned by the search tool and consumed by the agents.
The code handles dict records with exactly these six fields (the compaction
step of `ResearchAgent.run` projects onto them).  Numeric ratings are floats
in the source; they are modelled as rationals, which preserves every
comparison the code performs. -/
structure Place where
  name : String
  description : String
  rating : ℚ
  lat : ℚ
  lon : ℚ
  hours : String
deriving DecidableEq, Inhabited

/-- A rational constant given by numerator and denominator in lowest terms;
used to spell the decimal literals of the source in a kernel-reducible
form. -/
def ratLit (n : Int) (d : Nat) (hd : d ≠ 0) (hc : n.natAbs.Coprime d) : ℚ :=
  ⟨n, d, hd, hc⟩

/-- The four fixed demo places of `search_tool_stub`; fractions spell the
source decimals (4.6 = 23/5, 40.7794 = 203897/5000, -73.9632 = -46227/625,
and so on). -/
def cityMuseum : Place :=
  ⟨"City Museum", "Popular museum", ratLit 23 5 (by decide) (by decide),
    ratLit 203897 5000 (by decide) (by decide),
    ratLit (-46227) 625 (by decide) (by decide), "09:00-17:00"⟩

def centralPark : Place :=
  ⟨"Central Park", "Large urban park", ratLit 24 5 (by decide) (by decide),
    ratLit 40785091 1000000 (by decide) (by decide),
    ratLit (-14793657) 200000 (by decide) (by decide), "24/7"⟩

def grandMarket : Place :=
  ⟨"Grand Market", "Local market", ratLit 9 2 (by decide) (by decide),
    ratLit 407527 10000 (by decide) (by decide),
    ratLit (-184943) 2500 (by decide) (by decide), "08:00-20:00"⟩

def artGallery : Place :=
  ⟨"Art Gallery", "Contemporary art", ratLit 22 5 (by decide) (by decide),
    ratLit 203807 5000 (by decide) (by decide),
    ratLit (-46236) 625 (by decide) (by decide), "10:00-18:00"⟩

def demo_places : List Place := [cityMuseum, centralPark, grandMarket, artGallery]

/-- `search_tool_stub(query, top_k)`: ignores the query content and returns
the demo list truncated to `top_k` (`demo_places[:top_k]`). -/
def search_tool_stub (query : String) (top_k : Nat) : List Place :=
  demo_places.take top_k

/-- One Python dict assignment `unique[r["name"]] = r` on an
insertion-ordered dict keyed by place name: an existing key keeps its
position and receives the new record, a new key is appended at the end. -/
def dictInsert (acc : List Place) (r : Place) : List Place :=
  if acc.any (fun p => p.name = r.name) then
    acc.map (fun p => if p.name = r.name then r else p)
  else acc ++ [r]

/-- The dedupe loop of `ResearchAgent.run`: `for r in results:
unique[r["name"]] = r`, observed through `unique.values()` (first-occurrence
key order, last-seen values). -/
def dedupe (rs : List Place) : List Place := rs.foldl dictInsert []

/-- The ordering used by `sorted(..., key=lambda x: x["rating"],
reverse=True)`: `a` may come before `b` iff `b`'s rating is at most `a`'s. -/
def rankGe (a b : Place) : Prop := b.rating ≤ a.rating

instance : DecidableRel rankGe :=
  fun a b => inferInstanceAs (Decidable (b.rating ≤ a.rating))

instance : IsTotal Place rankGe := ⟨fun a b => le_total b.rating a.rating⟩

instance : IsTrans Place rankGe := ⟨fun _ _ _ hab hbc => le_trans hbc hab⟩

/-- Python's `sorted(values, key=rating, reverse=True)` is the (unique)
stable sort placing higher ratings first; equal-rated elements keep their
relative order.  Modelled by stable insertion sort under `rankGe`. -/
def sortDesc (l : List Place) : List Place := l.insertionSort rankGe

/-- The projection built by the `compact` list comprehension of
`ResearchAgent.run`; on the six-field model it rebuilds the same record. -/
def compactPlace (p : Place) : Place :=
  ⟨p.name, p.description, p.rating, p.lat, p.lon, p.hours⟩

/-- The collection loop of `ResearchAgent.run`: one query per interest,
`results.extend(hits)`. -/
def collect_results (tool : String → Nat → List Place) (destination : String)
    (interests : List String) (top_k_each : Nat) : List Place :=
  interests.foldl (fun acc i => acc ++ tool (destination ++ " top " ++ i) top_k_each) []

/-- `ResearchAgent.run`: collect, dedupe by name (last write wins), sort by
rating descending (stable), truncate to 20, project onto the six fields. -/
def research_run (tool : String → Nat → List Place) (destination : String)
    (interests : List String) (top_k_each : Nat) : List Place :=
  ((sortDesc (dedupe (collect_results tool destination interests top_k_each))).take 20).map
    compactPlace

/-- The three fixed daily time blocks of `PlannerAgent.build_itinerary`. -/
def time_blocks : List String := ["09:00-12:00", "12:30-15:00", "15:30-18:00"]

/-- One scheduled visit (`ItineraryItem` dataclass).  `day` is the integer
day number of the ISO date string stored by the code. -/
structure ItineraryItem where
  day : Int
  time_range : String
  place : Place
deriving DecidableEq, Inhabited

/-- The inner `for slot in range(3)` loop of `build_itinerary`, with its
`if index >= len(places): break` guard and global cursor `index`. -/
def dayLoop (places : List Place) (day : Int) :
    List Nat → Nat → List ItineraryItem × Nat
  | [], index => ([], index)
  | slot :: rest, index =>
    if places.length ≤ index then ([], index)
    else
      let next := dayLoop places day rest (index + 1)
      (⟨day, time_blocks.getD slot "", places.getD index default⟩ :: next.1, next.2)

/-- The outer `for d in range(days)` loop of `build_itinerary`; the key of
day `d` is `start + d` (the code stores the ISO string of that date, and
distinct dates have distinct ISO strings). -/
def outerLoop (places : List Place) (start : Int) :
    List Nat → Nat → List (Int × List ItineraryItem)
  | [], _ => []
  | d :: rest, index =>
    let dayRes := dayLoop places (start + (d : Int)) [0, 1, 2] index
    (start + (d : Int), dayRes.1) :: outerLoop places start rest dayRes.2

/-- `PlannerAgent.build_itinerary(places, start, end)`:
`days = (end - start).days + 1`; `range(days)` is empty when `days <= 0`. -/
def build_itinerary (places : List Place) (start finish : Int) :
    List (Int × List ItineraryItem) :=
  outerLoop places start (List.range (finish - start + 1).toNat) 0

/-- The list of all places scheduled anywhere in an itinerary, in slot
order. -/
def itineraryPlaces : List (Int × List ItineraryItem) → List Place
  | [] => []
  | e :: rest => e.2.map (fun it => it.place) ++ itineraryPlaces rest

/-! ### Sessions, preference dictionaries and the memory bank

Preference dictionaries are mutable Python objects shared by reference
(`record["preferences"] = session["preferences"]` stores the same object),
so they live in an explicit heap: a list of cells addressed by allocation
index. -/

/-- A preference dictionary's contents: an insertion-ordered string-keyed
mapping. -/
abbrev PrefMap := List (String × String)

/-- Python `m.get(k)` / `m[k]` on an association list. -/
def getKey {β : Type} : List (String × β) → String → Option β
  | [], _ => none
  | e :: es, k => if e.1 = k then some e.2 else getKey es k

/-- Python dict assignment `m[k] = v`: an existing key keeps its position
and receives the new value, a new key is appended at the end. -/
def setKey {β : Type} (m : List (String × β)) (k : String) (v : β) :
    List (String × β) :=
  if m.any (fun e => e.1 = k) then m.map (fun e => if e.1 = k then (k, v) else e)
  else m ++ [(k, v)]

/-- Python `old.update(upd)`: merge `upd` into `old`, new values overwrite
old on key collision, other keys are retained. -/
def dict_update (old upd : PrefMap) : PrefMap :=
  upd.foldl (fun acc kv => setKey acc kv.1 kv.2) old

/-- The heap of preference-dictionary objects; a reference is an index. -/
abbrev Heap := List PrefMap

/-- Dereference a preference dictionary. -/
def heapRead (h : Heap) (r : Nat) : PrefMap := h.getD r []

/-- In-place mutation of a preference dictionary (`.update`). -/
def heapWrite (h : Heap) (r : Nat) (m : PrefMap) : Heap := h.set r m

/-- The reference a fresh allocation on `h` receives. -/
def allocRef (h : Heap) : Nat := h.length

/-- Allocate a fresh preference dictionary (a `{...}` literal or
`json.load` materialisation). -/
def heapAlloc (h : Heap) (m : PrefMap) : Heap := h ++ [m]

/-- One trip record as appended by `plan_trip`.  Its `preferences` entry is
a reference to a preference-dictionary object (`record["preferences"] =
session["preferences"]` copies the reference, not the contents).  The
timestamp is an abstract clock value. -/
structure TripObj where
  destination : String
  start_date : Int
  end_date : Int
  itinerary : List (Int × List ItineraryItem)
  prefsRef : Nat
  timestamp : Nat
deriving DecidableEq

/-- A session object: `{"preferences": <dict object>, "trips": [...]}`. -/
structure SessionObj where
  prefsRef : Nat
  trips : List TripObj
deriving DecidableEq

/-- The pure contents of a trip record, as JSON serialisation sees them. -/
structure TripContent where
  destination : String
  start_date : Int
  end_date : Int
  itinerary : List (Int × List ItineraryItem)
  preferences : PrefMap
  timestamp : Nat
deriving DecidableEq

/-- The pure contents of a session, as JSON serialisation sees them. -/
structure SessionContent where
  preferences : PrefMap
  trips : List TripContent
deriving DecidableEq

/-- Read a trip record through the heap. -/
def derefTrip (h : Heap) (t : TripObj) : TripContent :=
  ⟨t.destination, t.start_date, t.end_date, t.itinerary, heapRead h t.prefsRef, t.timestamp⟩

/-- Read a session through the heap. -/
def derefSession (h : Heap) (s : SessionObj) : SessionContent :=
  ⟨heapRead h s.prefsRef, s.trips.map (derefTrip h)⟩

/-- A persisted store document: user id mapped to session contents. -/
abbrev StoreDoc := List (String × SessionContent)

/-- The file system: path mapped to the JSON document stored there. -/
abbrev FS := List (String × StoreDoc)

/-- `read_json(path)`: the stored document, or `{}` if the file is absent. -/
def read_json (fs : FS) (path : String) : StoreDoc := (getKey fs path).getD []

/-- `write_json(path, data)`: rewrite the whole document at `path`. -/
def write_json (fs : FS) (path : String) (doc : StoreDoc) : FS := setKey fs path doc

/-- The full program state: the object heap, the memory bank
(`path` and in-memory `data`), and the backing file system. -/
structure TBState where
  heap : Heap
  path : String
  data : List (String × SessionObj)
  fs : FS
deriving DecidableEq

/-- `MemoryBank.get_session(user_id)`: `self.data.get(user_id,
{"preferences": {}, "trips": []})`.  For an absent user the default literal
allocates a fresh empty preference dict; the store mapping is not touched. -/
def get_session (st : TBState) (u : String) : SessionObj × TBState :=
  match getKey st.data u with
  | some s => (s, st)
  | none => (⟨allocRef st.heap, []⟩, { st with heap := heapAlloc st.heap [] })

/-- Serialise the in-memory store through the heap, as `json.dump` does. -/
def serializeStore (h : Heap) (data : List (String × SessionObj)) : StoreDoc :=
  data.map (fun e => (e.1, derefSession h e.2))

/-- `MemoryBank.save_session(user_id, session)`: `self.data[user_id] =
session` followed by `write_json(self.path, self.data)`. -/
def save_session (st : TBState) (u : String) (s : SessionObj) : TBState :=
  let data2 := setKey st.data u s
  { st with data := data2, fs := write_json st.fs st.path (serializeStore st.heap data2) }

/-- The summary block of `plan_trip`'s result. -/
structure PlanSummary where
  destination : String
  days : Nat
  places_considered : Nat
  memory_saved : Bool
deriving DecidableEq

/-- The result dict of `plan_trip`. -/
structure PlanResult where
  itinerary : List (Int × List ItineraryItem)
  places : List Place
  session : SessionObj
  summary : PlanSummary
deriving DecidableEq

/-- `TravelBuddy.plan_trip`: load-or-create the session, merge the supplied
preferences in place, run the research agent (top_k_each = 5), compact to
12 candidates, build the itinerary, append a trip record whose preferences
entry aliases the session's preference dict, save, and return the result.
`now` abstracts `datetime.utcnow()`. -/
def plan_trip (tool : String → Nat → List Place) (st : TBState)
    (u destination : String) (start_date end_date : Int)
    (interests : List String) (preferences : PrefMap) (now : Nat) :
    TBState × PlanResult :=
  let g := get_session st u
  let session := g.1
  let st1 := g.2
  let st2 := { st1 with
    heap := heapWrite st1.heap session.prefsRef
      (dict_update (heapRead st1.heap session.prefsRef) preferences) }
  let places := research_run tool destination interests 5
  let top_places := places.take 12
  let itinerary := build_itinerary top_places start_date end_date
  let record : TripObj := ⟨destination, start_date, end_date, itinerary, session.prefsRef, now⟩
  let session2 : SessionObj := ⟨session.prefsRef, session.trips ++ [record]⟩
  let st3 := save_session st2 u session2
  (st3, ⟨itinerary, top_places, session2, ⟨destination, itinerary.length, top_places.length, true⟩⟩)

/-! ### Reconstructing a memory bank from the persisted file

`MemoryBank.__init__` runs `read_json`, which materialises fresh dict
objects for every mapping in the document. -/

/-- Materialise one trip record from its stored contents. -/
def loadTrip (h : Heap) (t : TripContent) : Heap × TripObj :=
  (heapAlloc h t.preferences,
   ⟨t.destination, t.start_date, t.end_date, t.itinerary, allocRef h, t.timestamp⟩)

/-- Materialise a list of trip records. -/
def loadTrips : Heap → List TripContent → Heap × List TripObj
  | h, [] => (h, [])
  | h, t :: ts =>
    let p := loadTrip h t
    let q := loadTrips p.1 ts
    (q.1, p.2 :: q.2)

/-- Materialise one session from its stored contents. -/
def loadSession (h : Heap) (c : SessionContent) : Heap × SessionObj :=
  let r := allocRef h
  let h1 := heapAlloc h c.preferences
  let q := loadTrips h1 c.trips
  (q.1, ⟨r, q.2⟩)

/-- Materialise a whole store document. -/
def loadStore : Heap → StoreDoc → Heap × List (String × SessionObj)
  | h, [] => (h, [])
  | h, e :: rest =>
    let p := loadSession h e.2
    let q := loadStore p.1 rest
    (q.1, (e.1, p.2) :: q.2)

/-- `MemoryBank(path)` constructed afresh over the file system `fs`,
within the process whose heap is `h`. -/
def loadBank (h : Heap) (fs : FS) (path : String) : TBState :=
  let q := loadStore h (read_json fs path)
  ⟨q.1, path, q.2, fs⟩

/-- All preference references stored in the bank point into the heap; true
of every state the program constructs. -/
def WF (st : TBState) : Prop := ∀ e ∈ st.data, e.2.prefsRef < st.heap.length

/-- The session preferences visible for user `u` before a call (empty for
an absent user, matching the default session literal). -/
def oldPrefs (st : TBState) (u : String) : PrefMap :=
  match getKey st.data u with
  | some s => heapRead st.heap s.prefsRef
  | none => []

/-! ### Lemmas about the collector (dedupe and stable sort) -/

lemma names_dictInsert (acc : List Place) (r : Place) :
    (dictInsert acc r).map Place.name =
      if acc.any (fun p => p.name = r.name) then acc.map Place.name
      else acc.map Place.name ++ [r.name] := by
  unfold dictInsert
  split_ifs with h
  · rw [List.map_map]
    exact List.map_congr_left fun p _ => by
      by_cases hp : p.name = r.name <;> simp [hp]
  · simp

lemma mem_names_dictInsert (acc : List Place) (r : Place) (n : String) :
    n ∈ (dictInsert acc r).map Place.name ↔
      n ∈ acc.map Place.name ∨ n = r.name := by
  rw [names_dictInsert]
  split_ifs with h
  · simp only [List.any_eq_true, decide_eq_true_eq] at h
    obtain ⟨p, hp, hpn⟩ := h
    constructor
    · exact Or.inl
    · rintro (hn | rfl)
      · exact hn
      · exact hpn ▸ List.mem_map_of_mem Place.name hp
  · simp

lemma nodup_names_dictInsert (acc : List Place) (r : Place)
    (h : (acc.map Place.name).Nodup) :
    ((dictInsert acc r).map Place.name).Nodup := by
  rw [names_dictInsert]
  split_ifs with ha
  · exact h
  · simp only [List.any_eq_true, decide_eq_true_eq] at ha
    push_neg at ha
    refine List.nodup_append.2 ⟨h, List.nodup_singleton _, ?_⟩
    intro n hn hn1
    obtain ⟨p, hp, rfl⟩ := List.mem_map.1 hn
    simp only [List.mem_singleton] at hn1
    exact ha p hp hn1

lemma nodup_names_foldl (rs : List Place) :
    ∀ acc, (acc.map Place.name).Nodup →
      ((rs.foldl dictInsert acc).map Place.name).Nodup := by
  induction rs with
  | nil => exact fun acc h => h
  | cons r rs ih =>
    intro acc h
    exact ih _ (nodup_names_dictInsert acc r h)

/-- The dedupe dict has pairwise distinct names. -/
lemma nodup_names_dedupe (rs : List Place) : ((dedupe rs).map Place.name).Nodup :=
  nodup_names_foldl rs [] (by simp)

lemma mem_names_foldl (rs : List Place) :
    ∀ acc n, n ∈ ((rs.foldl dictInsert acc).map Place.name) ↔
      n ∈ acc.map Place.name ∨ n ∈ rs.map Place.name := by
  induction rs with
  | nil => simp
  | cons r rs ih =>
    intro acc n
    rw [List.foldl_cons, ih, mem_names_dictInsert]
    simp only [List.map_cons, List.mem_cons]
    tauto

/-- Dedupe keeps exactly the names of the raw results. -/
lemma mem_names_dedupe (rs : List Place) (n : String) :
    n ∈ (dedupe rs).map Place.name ↔ n ∈ rs.map Place.name := by
  rw [dedupe, mem_names_foldl]; simp

lemma eq_of_mem_dictInsert_name {acc : List Place} {r p : Place}
    (hp : p ∈ dictInsert acc r) (hn : p.name = r.name) : p = r := by
  unfold dictInsert at hp
  split_ifs at hp with h
  · obtain ⟨q, _, hq⟩ := List.mem_map.1 hp
    by_cases hqn : q.name = r.name
    · rw [if_pos hqn] at hq; exact hq.symm
    · rw [if_neg hqn] at hq; exact absurd (hq ▸ hn) hqn
  · simp only [List.any_eq_true, decide_eq_true_eq] at h
    push_neg at h
    rcases List.mem_append.1 hp with hp | hp
    · exact absurd hn (h p hp)
    · simpa using hp

lemma mem_acc_of_mem_dictInsert {acc : List Place} {r p : Place}
    (hp : p ∈ dictInsert acc r) (hn : p.name ≠ r.name) : p ∈ acc := by
  unfold dictInsert at hp
  split_ifs at hp with h
  · obtain ⟨q, hq, hqe⟩ := List.mem_map.1 hp
    by_cases hqn : q.name = r.name
    · rw [if_pos hqn] at hqe
      exact absurd (hqe ▸ rfl) hn
    · rw [if_neg hqn] at hqe
      exact hqe ▸ hq
  · rcases List.mem_append.1 hp with hp | hp
    · exact hp
    · simp only [List.mem_singleton] at hp
      exact absurd (hp ▸ rfl) hn

lemma lastSeen_foldl (rs : List Place) :
    ∀ acc p, p ∈ rs.foldl dictInsert acc →
      (p.name ∈ rs.map Place.name ∧
        (rs.filter (fun q => q.name = p.name)).getLast? = some p)
      ∨ (p.name ∉ rs.map Place.name ∧ p ∈ acc) := by
  induction rs with
  | nil => exact fun acc p hp => Or.inr ⟨by simp, hp⟩
  | cons r rs ih =>
    intro acc p hp
    rw [List.foldl_cons] at hp
    rcases ih _ p hp with ⟨hmem, hlast⟩ | ⟨hmem, hacc⟩
    · refine Or.inl ⟨by simp [hmem], ?_⟩
      have hne : rs.filter (fun q => q.name = p.name) ≠ [] := by
        obtain ⟨q, hq, hqn⟩ := List.mem_map.1 hmem
        intro hnil
        rw [List.filter_eq_nil_iff] at hnil
        exact hnil q hq (by simp [hqn])
      obtain ⟨x, xs, hxs⟩ := List.exists_cons_of_ne_nil hne
      rw [List.filter_cons]
      split_ifs with hr
      · rw [hxs, List.getLast?_cons_cons, ← hxs, hlast]
      · exact hlast
    · by_cases hr : p.name = r.name
      · have hpr : p = r := eq_of_mem_dictInsert_name hacc hr
        refine Or.inl ⟨by simp [hr], ?_⟩
        have hnil : rs.filter (fun q => q.name = p.name) = [] := by
          rw [List.filter_eq_nil_iff]
          intro q hq hqn
          simp only [decide_eq_true_eq] at hqn
          exact hmem (hqn ▸ List.mem_map_of_mem Place.name hq)
        rw [List.filter_cons, if_pos (by simp [hr]), hnil]
        simp [hpr]
      · refine Or.inr ⟨?_, mem_acc_of_mem_dictInsert hacc hr⟩
        simp only [List.map_cons, List.mem_cons]
        rintro (h | h)
        · exact hr h
        · exact hmem h

/-- Every record surviving dedupe is the last-seen record with its name. -/
lemma lastSeen_dedupe {rs : List Place} {p : Place} (hp : p ∈ dedupe rs) :
    (rs.filter (fun q => q.name = p.name)).getLast? = some p := by
  rcases lastSeen_foldl rs [] p hp with ⟨_, h⟩ | ⟨_, h⟩
  · exact h
  · simp at h

lemma filter_rating_orderedInsert (p : Place) (l : List Place) (c : ℚ) :
    (List.orderedInsert rankGe p l).filter (fun q => q.rating = c) =
      if p.rating = c then p :: l.filter (fun q => q.rating = c)
      else l.filter (fun q => q.rating = c) := by
  induction l with
  | nil => simp [List.orderedInsert, List.filter_cons]
  | cons b bs ih =>
    rw [List.orderedInsert]
    by_cases hpb : rankGe p b
    · rw [if_pos hpb, List.filter_cons, List.filter_cons]
      split_ifs with h1 h2 <;> simp_all [List.filter_cons]
    · rw [if_neg hpb]
      have hbp : p.rating < b.rating := lt_of_not_le hpb
      by_cases hc : p.rating = c
      · have hbc : ¬(b.rating = c) := fun h => by
          rw [hc, h] at hbp; exact lt_irrefl _ hbp
        simp [List.filter_cons, ih, hc, hbc]
      · simp [List.filter_cons, ih, hc]

/-- Stable sorting preserves, for each rating value, the exact subsequence
of records carrying that rating. -/
lemma filter_rating_sortDesc (l : List Place) (c : ℚ) :
    (sortDesc l).filter (fun q => q.rating = c) = l.filter (fun q => q.rating = c) := by
  induction l with
  | nil => rfl
  | cons x xs ih =>
    rw [sortDesc, List.insertionSort, filter_rating_orderedInsert]
    rw [sortDesc] at ih
    by_cases hc : x.rating = c
    · rw [if_pos hc, ih, List.filter_cons, if_pos (by simpa using hc)]
    · rw [if_neg hc, ih, List.filter_cons, if_neg (by simpa using hc)]

lemma compactPlace_eq : compactPlace = id := funext fun _ => rfl

lemma map_compactPlace (l : List Place) : l.map compactPlace = l := by
  rw [compactPlace_eq, List.map_id]

lemma research_run_eq (tool : String → Nat → List Place) (destination : String)
    (interests : List String) (top_k_each : Nat) :
    research_run tool destination interests top_k_each =
      (sortDesc (dedupe (collect_results tool destination interests top_k_each))).take 20 := by
  rw [research_run, map_compactPlace]

/-! ### Claims C2 and C3: the collector -/

/-- A throwaway place record for counterexample search-tool results. -/
def cplace (nm : String) (r : ℚ) : Place := ⟨nm, "d", r, 0, 0, "h"⟩

/-- A search tool honouring the per-interest cap that yields 24 distinct
names (more than the overall output cap of 20) including one duplicated
name (`n01` is returned for both `i1` and `i5`). -/
def dupTool (q : String) (k : Nat) : List Place :=
  (if q = "D top i1" then
    [cplace "n01" 99, cplace "n02" 98, cplace "n03" 97, cplace "n04" 96, cplace "n05" 95]
   else if q = "D top i2" then
    [cplace "n06" 94, cplace "n07" 93, cplace "n08" 92, cplace "n09" 91, cplace "n10" 90]
   else if q = "D top i3" then
    [cplace "n11" 89, cplace "n12" 88, cplace "n13" 87, cplace "n14" 86, cplace "n15" 85]
   else if q = "D top i4" then
    [cplace "n16" 84, cplace "n17" 83, cplace "n18" 82, cplace "n19" 81, cplace "n20" 80]
   else if q = "D top i5" then
    [cplace "n01" 99, cplace "n21" 79, cplace "n22" 78, cplace "n23" 77, cplace "n24" 76]
   else []).take k

def dupInterests : List String := ["i1", "i2", "i3", "i4", "i5"]

/-- Claim C2, as stated, is false: with search-tool results containing a
duplicated name (`n01` appears twice) but more than 20 distinct names, the
`[:20]` truncation of `ResearchAgent.run` drops the lowest-ranked names, so
the distinct name `n24` of the input appears zero times (not exactly once)
in the output. -/
theorem C2_counterexample :
    ((collect_results dupTool "D" dupInterests 5).map Place.name).count "n01" = 2
    ∧ "n24" ∈ (collect_results dupTool "D" dupInterests 5).map Place.name
    ∧ "n24" ∉ (research_run dupTool "D" dupInterests 5).map Place.name := by
  decide

/-- Claim C2 amended: for every destination, interest list and search tool,
the output of `ResearchAgent.run` contains each distinct name at most once;
when the merged results have at most 20 distinct names, each distinct name
of the results appears exactly once; and every output record is the
last-seen search result carrying its name (last-write-wins). -/
theorem C2_collector_last_write_wins_amended (tool : String → Nat → List Place)
    (destination : String) (interests : List String) (top_k_each : Nat) :
    ((research_run tool destination interests top_k_each).map Place.name).Nodup
    ∧ ((dedupe (collect_results tool destination interests top_k_each)).length ≤ 20 →
        ∀ n ∈ (collect_results tool destination interests top_k_each).map Place.name,
          ((research_run tool destination interests top_k_each).map Place.name).count n = 1)
    ∧ (∀ p ∈ research_run tool destination interests top_k_each,
        ((collect_results tool destination interests top_k_each).filter
            (fun q => q.name = p.name)).getLast? = some p) := by
  have hperm : List.Perm
      (sortDesc (dedupe (collect_results tool destination interests top_k_each)))
      (dedupe (collect_results tool destination interests top_k_each)) :=
    List.perm_insertionSort rankGe _
  have hnamesperm := hperm.map Place.name
  refine ⟨?_, ?_, ?_⟩
  · rw [research_run_eq, List.map_take]
    exact List.Nodup.sublist (List.take_sublist 20 _)
      (hnamesperm.nodup_iff.2 (nodup_names_dedupe _))
  · intro hlen n hn
    rw [research_run_eq, List.take_of_length_le (by rw [hperm.length_eq]; exact hlen)]
    rw [hnamesperm.count_eq n]
    exact List.count_eq_one_of_mem (nodup_names_dedupe _) ((mem_names_dedupe _ n).2 hn)
  · intro p hp
    rw [research_run_eq] at hp
    exact lastSeen_dedupe (hperm.mem_iff.1 (List.mem_of_mem_take hp))

/-- Concrete instance of the amended claim C2 at the reference stub. -/
theorem C2_witness :
    ((research_run search_tool_stub "X" ["a"] 5).map Place.name).count "City Museum" = 1 :=
  (C2_collector_last_write_wins_amended search_tool_stub "X" ["a"] 5).2.1 (by decide)
    "City Museum" (by decide)

/-- Claim C3: the output of `ResearchAgent.run` is sorted by rating
descending (`rankGe a b` means `b.rating ≤ a.rating`), and for each rating
value the output records with that rating form a subsequence of the merged
input (the dedupe dict in first-occurrence order of each surviving name),
i.e. ties keep their relative merged order. -/
theorem C3_collector_sorted_stable (tool : String → Nat → List Place)
    (destination : String) (interests : List String) (top_k_each : Nat) :
    (research_run tool destination interests top_k_each).Pairwise rankGe
    ∧ ∀ c : ℚ,
        ((research_run tool destination interests top_k_each).filter
            (fun p => p.rating = c)).Sublist
          ((dedupe (collect_results tool destination interests top_k_each)).filter
            (fun p => p.rating = c)) := by
  constructor
  · rw [research_run_eq]
    exact List.Pairwise.sublist (List.take_sublist 20 _)
      (List.sorted_insertionSort rankGe _)
  · intro c
    rw [research_run_eq, ← filter_rating_sortDesc
      (dedupe (collect_results tool destination interests top_k_each)) c]
    exact List.Sublist.filter _ (List.take_sublist 20 _)

/-! ### Lemmas about the scheduler -/

lemma dayLoop_stop {places : List Place} {day : Int} (slots : List Nat) {index : Nat}
    (h : places.length ≤ index) : dayLoop places day slots index = ([], index) := by
  cases slots <;> simp [dayLoop, h]

lemma outerLoop_keys (places : List Place) (s : Int) :
    ∀ (ds : List Nat) (index : Nat),
      (outerLoop places s ds index).map Prod.fst = ds.map (fun d : Nat => s + (d : Int)) := by
  intro ds
  induction ds with
  | nil => intro index; rfl
  | cons d rest ih => intro index; simp [outerLoop, ih]

lemma outerLoop_length (places : List Place) (s : Int) (ds : List Nat) (index : Nat) :
    (outerLoop places s ds index).length = ds.length :=
  calc (outerLoop places s ds index).length
      = ((outerLoop places s ds index).map Prod.fst).length := (List.length_map _ _).symm
    _ = (ds.map (fun d : Nat => s + (d : Int))).length := by rw [outerLoop_keys]
    _ = ds.length := List.length_map _ _

lemma outerLoop_empty (places : List Place) (s : Int) :
    ∀ (ds : List Nat) (index : Nat), places.length ≤ index →
      outerLoop places s ds index =
        ds.map (fun d : Nat => (s + (d : Int), ([] : List ItineraryItem))) := by
  intro ds
  induction ds with
  | nil => intro index _; rfl
  | cons d rest ih =>
    intro index h
    simp [outerLoop, dayLoop_stop [0, 1, 2] h, ih index h]

lemma dayLoop_full (places : List Place) (day : Int) (index : Nat)
    (h : index + 3 ≤ places.length) :
    dayLoop places day [0, 1, 2] index =
      ([⟨day, "09:00-12:00", places.getD index default⟩,
        ⟨day, "12:30-15:00", places.getD (index + 1) default⟩,
        ⟨day, "15:30-18:00", places.getD (index + 2) default⟩], index + 3) := by
  have h0 : ¬ places.length ≤ index := by omega
  have h1 : ¬ places.length ≤ index + 1 := by omega
  have h2 : ¬ places.length ≤ index + 2 := by omega
  simp [dayLoop, h0, h1, h2, time_blocks]

lemma take_three_cons (a b c : Place) (l : List Place) (k : Nat) :
    (a :: b :: c :: l).take (3 * k + 3) = a :: b :: c :: l.take (3 * k) := by
  have e1 : 3 * k + 3 = (3 * k + 2) + 1 := by omega
  rw [e1, List.take_succ_cons]
  have e2 : 3 * k + 2 = (3 * k + 1) + 1 := by omega
  rw [e2, List.take_succ_cons]
  rw [List.take_succ_cons]

lemma take3_drop (places : List Place) (index k : Nat) (h : index + 3 ≤ places.length) :
    (places.drop index).take (3 * k + 3) =
      places.getD index default :: places.getD (index + 1) default ::
        places.getD (index + 2) default :: (places.drop (index + 3)).take (3 * k) := by
  have g0 : index < places.length := by omega
  have g1 : index + 1 < places.length := by omega
  have g2 : index + 2 < places.length := by omega
  rw [List.drop_eq_getElem_cons g0, List.drop_eq_getElem_cons g1,
    List.drop_eq_getElem_cons g2, take_three_cons,
    List.getD_eq_getElem _ _ g0, List.getD_eq_getElem _ _ g1, List.getD_eq_getElem _ _ g2]

lemma outerLoop_full (places : List Place) (s : Int) :
    ∀ (ds : List Nat) (index : Nat), index + 3 * ds.length ≤ places.length →
      (∀ e ∈ outerLoop places s ds index, e.2.length = 3)
      ∧ itineraryPlaces (outerLoop places s ds index) =
          (places.drop index).take (3 * ds.length) := by
  intro ds
  induction ds with
  | nil => intro index _; exact ⟨by simp [outerLoop], by simp [outerLoop, itineraryPlaces]⟩
  | cons d rest ih =>
    intro index h
    have h3 : index + 3 ≤ places.length := by
      simp only [List.length_cons] at h; omega
    have hr : (index + 3) + 3 * rest.length ≤ places.length := by
      simp only [List.length_cons] at h; omega
    have ihr := ih (index + 3) hr
    constructor
    · intro e he
      simp only [outerLoop, dayLoop_full places _ index h3] at he
      rcases List.mem_cons.1 he with rfl | he
      · rfl
      · exact ihr.1 e he
    · simp only [outerLoop, dayLoop_full places _ index h3, itineraryPlaces]
      rw [ihr.2]
      simp only [List.length_cons, List.map_cons, List.map_nil]
      have harith : 3 * (rest.length + 1) = 3 * rest.length + 3 := by omega
      rw [harith, take3_drop places index rest.length h3]
      rfl

/-! ### Claims C1, C4, C5, C6: the scheduler -/

/-- Claim C1: for a range of exactly `N` days (`finish = start + N - 1`,
`N ≥ 1`) and at least `3N` candidates with pairwise distinct names,
`build_itinerary` produces `N` days of exactly 3 visits each, and no place
is scheduled more than once across the whole itinerary. -/
theorem C1_scheduler_fills_all_slots (places : List Place) (s e : Int) (N : Nat)
    (hN : 1 ≤ N) (he : e = s + N - 1) (hlen : 3 * N ≤ places.length)
    (hnames : (places.map Place.name).Nodup) :
    (build_itinerary places s e).length = N
    ∧ (∀ day ∈ build_itinerary places s e, day.2.length = 3)
    ∧ (itineraryPlaces (build_itinerary places s e)).Nodup := by
  have hdays : (e - s + 1).toNat = N := by omega
  rw [build_itinerary, hdays]
  have hfull := outerLoop_full places s (List.range N) 0
    (by simp only [List.length_range]; omega)
  refine ⟨?_, hfull.1, ?_⟩
  · rw [outerLoop_length, List.length_range]
  · rw [hfull.2]
    simp only [List.drop_zero, List.length_range]
    apply List.Nodup.of_map Place.name
    rw [List.map_take]
    exact List.Nodup.sublist (List.take_sublist _ _) hnames

/-- Instance of claim C1 at `N = 1` with the three top demo places. -/
theorem C1_witness :
    (1 ≤ 1 ∧ (0 : Int) = 0 + (1 : Nat) - 1 ∧ 3 * 1 ≤ demo_places.length
      ∧ (demo_places.map Place.name).Nodup)
    ∧ ((build_itinerary demo_places 0 0).length = 1
      ∧ (∀ day ∈ build_itinerary demo_places 0 0, day.2.length = 3)
      ∧ (itineraryPlaces (build_itinerary demo_places 0 0)).Nodup) :=
  ⟨⟨le_refl 1, by decide, by decide, by decide⟩,
    C1_scheduler_fills_all_slots demo_places 0 0 1 (le_refl 1) (by decide) (by decide)
      (by decide)⟩

lemma dayLoop_single (p : Place) (day : Int) :
    dayLoop [p] day [0, 1, 2] 0 = ([⟨day, "09:00-12:00", p⟩], 1) := by
  simp [dayLoop, time_blocks]

/-- Claim C4: for `start ≤ end`, the itinerary keys are exactly the dates
of `[start, end]` in order (days past candidate exhaustion map to empty
lists, not missing keys); for `start = end` there is exactly one day key;
and a single candidate is placed on day 1 in slot "09:00-12:00" with all
other slots and days empty. -/
theorem C4_itinerary_day_keys (places : List Place) (s e : Int) (h : s ≤ e) :
    ((build_itinerary places s e).map Prod.fst =
      (List.range (e - s + 1).toNat).map (fun d : Nat => s + (d : Int)))
    ∧ (∀ t : Int, t ∈ (build_itinerary places s e).map Prod.fst ↔ s ≤ t ∧ t ≤ e)
    ∧ (s = e → (build_itinerary places s e).length = 1)
    ∧ (∀ p : Place, build_itinerary [p] s e =
        (s, [⟨s, "09:00-12:00", p⟩]) ::
          (List.range (e - s).toNat).map
            (fun d : Nat => (s + 1 + (d : Int), ([] : List ItineraryItem)))) := by
  refine ⟨outerLoop_keys places s _ 0, ?_, ?_, ?_⟩
  · intro t
    rw [build_itinerary, outerLoop_keys places s _ 0]
    simp only [List.mem_map, List.mem_range]
    constructor
    · rintro ⟨d, hd, rfl⟩
      omega
    · rintro ⟨h1, h2⟩
      exact ⟨(t - s).toNat, by omega, by omega⟩
  · intro hse
    have h1 : (e - s + 1).toNat = 1 := by omega
    rw [build_itinerary, h1, outerLoop_length, List.length_range]
  · intro p
    have h1 : (e - s + 1).toNat = (e - s).toNat + 1 := by omega
    rw [build_itinerary, h1, List.range_succ_eq_map]
    simp only [outerLoop, dayLoop_single]
    rw [outerLoop_empty [p] s _ 1 (by simp)]
    have hz : s + ((0 : Nat) : Int) = s := by simp
    rw [hz, List.map_map]
    refine congrArg (List.cons _) (List.map_congr_left fun d _ => ?_)
    have hsd : s + ((Nat.succ d : Nat) : Int) = s + 1 + (d : Int) := by push_cast; ring
    simp only [Function.comp_apply, hsd]

/-- Instance of claim C4 on a two-day range. -/
theorem C4_witness :
    (0 : Int) ≤ 1 ∧ ((build_itinerary demo_places 0 1).map Prod.fst =
      (List.range ((1 : Int) - 0 + 1).toNat).map (fun d : Nat => 0 + (d : Int))) :=
  ⟨by decide, (C4_itinerary_day_keys demo_places 0 1 (by decide)).1⟩

def demo_interests : List String := ["museums", "parks", "markets"]

/-- Claim C5: with the reference stub and interests
["museums", "parks", "markets"], the ranked output is Central Park (4.8),
City Museum (4.6), Grand Market (4.5), Art Gallery (4.4), and scheduling
over any 2-day range puts the first three on day 1 across the three time
blocks and Art Gallery alone on day 2 in block "09:00-12:00". -/
theorem C5_reference_example (destination : String) (s : Int) :
    research_run search_tool_stub destination demo_interests 5 =
      [centralPark, cityMuseum, grandMarket, artGallery]
    ∧ build_itinerary (research_run search_tool_stub destination demo_interests 5) s (s + 1) =
        [(s, [⟨s, "09:00-12:00", centralPark⟩, ⟨s, "12:30-15:00", cityMuseum⟩,
              ⟨s, "15:30-18:00", grandMarket⟩]),
         (s + 1, [⟨s + 1, "09:00-12:00", artGallery⟩])] := by
  have hfirst : research_run search_tool_stub destination demo_interests 5 =
      [centralPark, cityMuseum, grandMarket, artGallery] := rfl
  refine ⟨hfirst, ?_⟩
  rw [hfirst, build_itinerary]
  have h2 : ((s + 1) - s + 1).toNat = 2 := by omega
  rw [h2, show List.range 2 = [0, 1] from rfl]
  have hday0 : ∀ day : Int,
      dayLoop [centralPark, cityMuseum, grandMarket, artGallery] day [0, 1, 2] 0 =
        ([⟨day, "09:00-12:00", centralPark⟩, ⟨day, "12:30-15:00", cityMuseum⟩,
          ⟨day, "15:30-18:00", grandMarket⟩], 3) := fun day => by
    simp [dayLoop, time_blocks]
  have hday1 : ∀ day : Int,
      dayLoop [centralPark, cityMuseum, grandMarket, artGallery] day [0, 1, 2] 3 =
        ([⟨day, "09:00-12:00", artGallery⟩], 4) := fun day => by
    simp [dayLoop, time_blocks]
  simp only [outerLoop, hday0, hday1]
  have e0 : s + ((0 : Nat) : Int) = s := by simp
  have e1 : s + ((1 : Nat) : Int) = s + 1 := by norm_num
  rw [e0, e1]

/-- Claim C6: an inverted range (`finish < start`) yields the empty
itinerary (no day keys) and no error. -/
theorem C6_inverted_range_empty (places : List Place) (s e : Int) (h : e < s) :
    build_itinerary places s e = [] := by
  rw [build_itinerary]
  have h0 : (e - s + 1).toNat = 0 := by omega
  rw [h0]
  rfl

/-- Instance of claim C6. -/
theorem C6_witness : (3 : Int) < 5 ∧ build_itinerary demo_places 5 3 = [] :=
  ⟨by decide, C6_inverted_range_empty demo_places 5 3 (by decide)⟩

/-! ### Lemmas about dictionaries, the heap and the store -/

lemma getKey_replace_ne {β : Type} (k k' : String) (v : β) (h : k' ≠ k) :
    ∀ m : List (String × β),
      getKey (m.map (fun e => if e.1 = k then (k, v) else e)) k' = getKey m k' := by
  intro m
  induction m with
  | nil => rfl
  | cons e es ih =>
    by_cases he : e.1 = k
    · simp [getKey, he, Ne.symm h, ih]
    · simp [getKey, he, ih]

lemma getKey_append_single_ne {β : Type} (k k' : String) (v : β) (h : k' ≠ k) :
    ∀ m : List (String × β), getKey (m ++ [(k, v)]) k' = getKey m k' := by
  intro m
  induction m with
  | nil => simp [getKey, Ne.symm h]
  | cons e es ih => simp [getKey, ih]

lemma getKey_of_any {β : Type} (k : String) (v : β) :
    ∀ m : List (String × β), m.any (fun e => e.1 = k) = true →
      getKey (m.map (fun e => if e.1 = k then (k, v) else e)) k = some v := by
  intro m
  induction m with
  | nil => intro h; simp at h
  | cons e es ih =>
    intro h
    by_cases he : e.1 = k
    · simp [getKey, he]
    · have h' : es.any (fun e => e.1 = k) = true := by
        simp only [List.any_cons, Bool.or_eq_true, decide_eq_true_eq] at h ⊢
        tauto
      simp [getKey, he, ih h']

lemma getKey_of_not_any {β : Type} (k : String) (v : β) :
    ∀ m : List (String × β), ¬(m.any (fun e => e.1 = k) = true) →
      getKey (m ++ [(k, v)]) k = some v := by
  intro m
  induction m with
  | nil => intro _; simp [getKey]
  | cons e es ih =>
    intro h
    simp only [List.any_cons, Bool.or_eq_true, decide_eq_true_eq] at h
    push_neg at h
    simp [getKey, h.1, ih (by simpa using h.2)]

lemma getKey_setKey_self {β : Type} (m : List (String × β)) (k : String) (v : β) :
    getKey (setKey m k v) k = some v := by
  unfold setKey
  split_ifs with h
  · exact getKey_of_any k v m h
  · exact getKey_of_not_any k v m h

lemma getKey_setKey_ne {β : Type} (m : List (String × β)) (k : String) (v : β)
    (k' : String) (h : k' ≠ k) : getKey (setKey m k v) k' = getKey m k' := by
  unfold setKey
  split_ifs with hm
  · exact getKey_replace_ne k k' v h m
  · exact getKey_append_single_ne k k' v h m

lemma getKey_mem {β : Type} :
    ∀ (m : List (String × β)) (k : String) (v : β), getKey m k = some v → (k, v) ∈ m := by
  intro m
  induction m with
  | nil => intro k v h; simp [getKey] at h
  | cons e es ih =>
    intro k v h
    simp only [getKey] at h
    split_ifs at h with he
    · simp only [Option.some.injEq] at h
      subst h
      exact List.mem_cons.2 (Or.inl (by rw [← he]))
    · exact List.mem_cons.2 (Or.inr (ih k v h))

lemma getKey_map_snd {β γ : Type} (f : β → γ) :
    ∀ (m : List (String × β)) (k : String),
      getKey (m.map (fun e => (e.1, f e.2))) k = (getKey m k).map f := by
  intro m
  induction m with
  | nil => intro k; rfl
  | cons e es ih =>
    intro k
    by_cases he : e.1 = k <;> simp [getKey, he, ih]

lemma getKey_dict_update_not_mem :
    ∀ (upd old : PrefMap) (k : String), k ∉ upd.map Prod.fst →
      getKey (dict_update old upd) k = getKey old k := by
  intro upd
  induction upd with
  | nil => intro old k _; rfl
  | cons e rest ih =>
    intro old k hk
    simp only [List.map_cons, List.mem_cons] at hk
    push_neg at hk
    have hstep : dict_update old (e :: rest) = dict_update (setKey old e.1 e.2) rest := rfl
    rw [hstep, ih _ k hk.2, getKey_setKey_ne old e.1 e.2 k hk.1]

lemma getKey_dict_update_mem :
    ∀ (upd old : PrefMap) (kv : String × String), (upd.map Prod.fst).Nodup →
      kv ∈ upd → getKey (dict_update old upd) kv.1 = some kv.2 := by
  intro upd
  induction upd with
  | nil => intro old kv _ h; simp at h
  | cons e rest ih =>
    intro old kv hnodup hmem
    have hstep : dict_update old (e :: rest) = dict_update (setKey old e.1 e.2) rest := rfl
    rw [hstep]
    simp only [List.map_cons, List.nodup_cons] at hnodup
    rcases List.mem_cons.1 hmem with rfl | hmem
    · have hk : kv.1 ∉ rest.map Prod.fst := hnodup.1
      rw [getKey_dict_update_not_mem rest _ kv.1 hk, getKey_setKey_self]
    · exact ih _ kv hnodup.2 hmem

lemma heapRead_heapWrite_self (h : Heap) (r : Nat) (m : PrefMap) (hr : r < h.length) :
    heapRead (heapWrite h r m) r = m := by
  rw [heapRead, heapWrite, List.getD_eq_getElem _ _ (by simpa using hr),
    List.getElem_set_self]

lemma heapRead_heapAlloc_last (h : Heap) (m : PrefMap) :
    heapRead (heapAlloc h m) (allocRef h) = m := by
  rw [heapRead, heapAlloc, allocRef, List.getD_append_right _ _ _ _ (le_refl _)]
  simp

lemma heapRead_extend (h1 tail : Heap) (r : Nat) (hr : r < h1.length) :
    heapRead (h1 ++ tail) r = heapRead h1 r :=
  List.getD_append _ _ _ _ hr

/-- All references of a session object lie below `n`. -/
def sessionRefsLt (s : SessionObj) (n : Nat) : Prop :=
  s.prefsRef < n ∧ ∀ o ∈ s.trips, o.prefsRef < n

lemma derefTrip_extend (h tail : Heap) (o : TripObj) (ho : o.prefsRef < h.length) :
    derefTrip (h ++ tail) o = derefTrip h o := by
  simp [derefTrip, heapRead_extend _ _ _ ho]

lemma derefSession_extend (h tail : Heap) (s : SessionObj)
    (hs : sessionRefsLt s h.length) : derefSession (h ++ tail) s = derefSession h s := by
  simp only [derefSession, heapRead_extend _ _ _ hs.1]
  refine congrArg _ (List.map_congr_left fun o ho => ?_)
  exact derefTrip_extend _ _ _ (hs.2 o ho)

lemma loadTrips_extend :
    ∀ (ts : List TripContent) (h : Heap), ∃ tail, (loadTrips h ts).1 = h ++ tail := by
  intro ts
  induction ts with
  | nil => intro h; exact ⟨[], by simp [loadTrips]⟩
  | cons t ts ih =>
    intro h
    obtain ⟨tail2, h2⟩ := ih (heapAlloc h t.preferences)
    exact ⟨[t.preferences] ++ tail2, by
      simp only [loadTrips, loadTrip]
      rw [h2, heapAlloc, List.append_assoc]⟩

lemma loadTrips_spec :
    ∀ (ts : List TripContent) (h : Heap),
      ((loadTrips h ts).2.map (derefTrip (loadTrips h ts).1) = ts)
      ∧ (∀ o ∈ (loadTrips h ts).2, o.prefsRef < (loadTrips h ts).1.length) := by
  intro ts
  induction ts with
  | nil => intro h; exact ⟨rfl, by simp [loadTrips]⟩
  | cons t ts ih =>
    intro h
    obtain ⟨hmap, hbound⟩ := ih (heapAlloc h t.preferences)
    obtain ⟨tail, htail⟩ := loadTrips_extend ts (heapAlloc h t.preferences)
    have hheadref : allocRef h < (heapAlloc h t.preferences).length := by
      simp [heapAlloc, allocRef]
    have hhead : derefTrip (loadTrips (heapAlloc h t.preferences) ts).1
        ⟨t.destination, t.start_date, t.end_date, t.itinerary, allocRef h, t.timestamp⟩ = t := by
      rw [htail, derefTrip_extend _ _ _ (by simpa [heapAlloc] using hheadref)]
      simp [derefTrip, heapRead_heapAlloc_last]
    constructor
    · simp only [loadTrips, loadTrip, List.map_cons]
      rw [hhead, hmap]
    · intro o ho
      simp only [loadTrips, loadTrip, List.mem_cons] at ho
      rcases ho with rfl | ho
      · simp only [loadTrips, loadTrip]
        rw [htail]
        simp only [List.length_append]
        have : allocRef h < (heapAlloc h t.preferences).length := hheadref
        simp only [heapAlloc, List.length_append] at this ⊢
        omega
      · exact hbound o ho

lemma loadSession_spec (h : Heap) (c : SessionContent) :
    derefSession (loadSession h c).1 (loadSession h c).2 = c
    ∧ sessionRefsLt (loadSession h c).2 (loadSession h c).1.length
    ∧ ∃ tail, (loadSession h c).1 = h ++ tail := by
  obtain ⟨hmap, hbound⟩ := loadTrips_spec c.trips (heapAlloc h c.preferences)
  obtain ⟨tail, htail⟩ := loadTrips_extend c.trips (heapAlloc h c.preferences)
  have href : allocRef h < (heapAlloc h c.preferences).length := by
    simp [heapAlloc, allocRef]
  refine ⟨?_, ⟨?_, ?_⟩, ?_⟩
  · simp only [loadSession, derefSession]
    rw [hmap, htail, heapRead_extend _ _ _ (by simpa [heapAlloc] using href),
      heapRead_heapAlloc_last]
  · simp only [loadSession]
    rw [htail]
    simp only [heapAlloc, allocRef, List.length_append] at href ⊢
    omega
  · intro o ho
    simp only [loadSession] at ho ⊢
    exact hbound o ho
  · simp only [loadSession]
    rw [htail, heapAlloc, List.append_assoc]
    exact ⟨[c.preferences] ++ tail, rfl⟩

lemma loadStore_extend :
    ∀ (doc : StoreDoc) (h : Heap), ∃ tail, (loadStore h doc).1 = h ++ tail := by
  intro doc
  induction doc with
  | nil => intro h; exact ⟨[], by simp [loadStore]⟩
  | cons e rest ih =>
    intro h
    obtain ⟨t1, h1⟩ := (loadSession_spec h e.2).2.2
    obtain ⟨t2, h2⟩ := ih (loadSession h e.2).1
    exact ⟨t1 ++ t2, by
      simp only [loadStore]
      rw [h2, h1, List.append_assoc]⟩

lemma loadStore_spec :
    ∀ (doc : StoreDoc) (h : Heap) (u : String) (c : SessionContent),
      getKey doc u = some c →
      ∃ so, getKey (loadStore h doc).2 u = some so
        ∧ derefSession (loadStore h doc).1 so = c := by
  intro doc
  induction doc with
  | nil => intro h u c hc; simp [getKey] at hc
  | cons e rest ih =>
    intro h u c hc
    simp only [getKey] at hc
    by_cases hu : e.1 = u
    · rw [if_pos hu] at hc
      simp only [Option.some.injEq] at hc
      subst hc
      refine ⟨(loadSession h e.2).2, ?_, ?_⟩
      · simp [loadStore, getKey, hu]
      · simp only [loadStore]
        obtain ⟨tail, htail⟩ := loadStore_extend rest (loadSession h e.2).1
        rw [htail, derefSession_extend _ _ _ (loadSession_spec h e.2).2.1]
        exact (loadSession_spec h e.2).1
    · rw [if_neg hu] at hc
      obtain ⟨so, hso, hderef⟩ := ih (loadSession h e.2).1 u c hc
      exact ⟨so, by simp [loadStore, getKey, hu, hso], by simpa [loadStore] using hderef⟩

/-! ### Claims C7 to C10: the session store -/

/-- The empty program state (fresh store file, nothing persisted). -/
def emptyState (path : String) : TBState := ⟨[], path, [], []⟩

/-- The observable preference contents of the first (earliest) trip record
stored for user `u`. -/
def firstTripPrefs (st : TBState) (u : String) : Option PrefMap :=
  match getKey st.data u with
  | some s =>
    match s.trips with
    | [] => none
    | t :: _ => some (heapRead st.heap t.prefsRef)
  | none => none

/-- State after a first planning call merging {"diet": "vegetarian"}. -/
def stAliasing1 : TBState :=
  (plan_trip search_tool_stub (emptyState "memory/memory_bank.json") "u1" "Paris" 0 0
    ["museums"] [("diet", "vegetarian")] 0).1

/-- State after a second planning call for the same user merging
{"diet": "vegan"}. -/
def stAliasing2 : TBState :=
  (plan_trip search_tool_stub stAliasing1 "u1" "Rome" 10 10
    ["parks"] [("diet", "vegan")] 1).1

/-- Claim C7 is the intended behaviour, but the code violates it:
`record["preferences"] = session["preferences"]` stores a reference to the
live session dict, so the second `plan_trip` call's in-place
`session["preferences"].update(...)` rewrites the first trip record's
preferences (both in memory and in the store file rewritten on save).
After the first call the first record reads {"diet": "vegetarian"}; after
the second call the same record reads {"diet": "vegan"}, and the persisted
document shows the first trip's preferences as {"diet": "vegan"} too. -/
theorem C7_trip_record_aliasing_bug :
    firstTripPrefs stAliasing1 "u1" = some [("diet", "vegetarian")]
    ∧ firstTripPrefs stAliasing2 "u1" = some [("diet", "vegan")]
    ∧ ((getKey (read_json stAliasing2.fs "memory/memory_bank.json") "u1").map
        (fun c => c.trips.map (fun t => t.preferences))) =
      some [[("diet", "vegan")], [("diet", "vegan")]] := by
  decide

/-- Claim C8: `plan_trip` merges the supplied preferences into the user's
session preferences: every supplied key maps to its supplied value, and
every other key keeps the value it had before the call. -/
theorem C8_preferences_merge (tool : String → Nat → List Place) (st : TBState)
    (u destination : String) (start_date end_date : Int) (interests : List String)
    (preferences : PrefMap) (now : Nat) (hwf : WF st)
    (hnodup : (preferences.map Prod.fst).Nodup) :
    ∃ s2, getKey (plan_trip tool st u destination start_date end_date interests
          preferences now).1.data u = some s2
      ∧ (∀ kv ∈ preferences,
          getKey (heapRead (plan_trip tool st u destination start_date end_date interests
            preferences now).1.heap s2.prefsRef) kv.1 = some kv.2)
      ∧ (∀ k, k ∉ preferences.map Prod.fst →
          getKey (heapRead (plan_trip tool st u destination start_date end_date interests
            preferences now).1.heap s2.prefsRef) k = getKey (oldPrefs st u) k) := by
  cases hk : getKey st.data u with
  | some s =>
    have hmem : (u, s) ∈ st.data := getKey_mem st.data u s hk
    have href : s.prefsRef < st.heap.length := hwf (u, s) hmem
    simp only [plan_trip, get_session, hk, save_session, write_json]
    refine ⟨_, getKey_setKey_self _ u _, ?_, ?_⟩
    · intro kv hkv
      dsimp only
      rw [heapRead_heapWrite_self _ _ _ href]
      exact getKey_dict_update_mem preferences _ kv hnodup hkv
    · intro k hknot
      dsimp only
      rw [heapRead_heapWrite_self _ _ _ href,
        getKey_dict_update_not_mem preferences _ k hknot, oldPrefs, hk]
  | none =>
    have href : allocRef st.heap < (heapAlloc st.heap []).length := by
      simp [heapAlloc, allocRef]
    simp only [plan_trip, get_session, hk, save_session, write_json]
    refine ⟨_, getKey_setKey_self _ u _, ?_, ?_⟩
    · intro kv hkv
      dsimp only
      rw [heapRead_heapWrite_self _ _ _ href, heapRead_heapAlloc_last]
      exact getKey_dict_update_mem preferences _ kv hnodup hkv
    · intro k hknot
      dsimp only
      rw [heapRead_heapWrite_self _ _ _ href, heapRead_heapAlloc_last,
        getKey_dict_update_not_mem preferences _ k hknot, oldPrefs, hk]

/-- Instance of claim C8 on a fresh state. -/
theorem C8_witness :
    WF (emptyState "p") ∧ (([("diet", "veg")] : PrefMap).map Prod.fst).Nodup
    ∧ ∃ s2, getKey (plan_trip search_tool_stub (emptyState "p") "u" "NY" 0 0 ["a"]
          [("diet", "veg")] 7).1.data "u" = some s2
      ∧ (∀ kv ∈ ([("diet", "veg")] : PrefMap),
          getKey (heapRead (plan_trip search_tool_stub (emptyState "p") "u" "NY" 0 0 ["a"]
            [("diet", "veg")] 7).1.heap s2.prefsRef) kv.1 = some kv.2)
      ∧ (∀ k, k ∉ ([("diet", "veg")] : PrefMap).map Prod.fst →
          getKey (heapRead (plan_trip search_tool_stub (emptyState "p") "u" "NY" 0 0 ["a"]
            [("diet", "veg")] 7).1.heap s2.prefsRef) k =
            getKey (oldPrefs (emptyState "p") "u") k) :=
  ⟨fun e he => absurd he (List.not_mem_nil e), by decide,
    C8_preferences_merge search_tool_stub (emptyState "p") "u" "NY" 0 0 ["a"]
      [("diet", "veg")] 7 (fun e he => absurd he (List.not_mem_nil e)) (by decide)⟩

/-- Claim C9: saving a session and reloading the store from the same path
yields a session whose preference mapping and trip list are content-equal
to the saved ones. -/
theorem C9_save_reload_roundtrip (st : TBState) (u : String) (s : SessionObj) :
    derefSession
      (get_session (loadBank (save_session st u s).heap (save_session st u s).fs
        (save_session st u s).path) u).2.heap
      (get_session (loadBank (save_session st u s).heap (save_session st u s).fs
        (save_session st u s).path) u).1
    = derefSession st.heap s := by
  have hdoc : read_json (save_session st u s).fs (save_session st u s).path =
      serializeStore st.heap (setKey st.data u s) := by
    simp only [save_session, write_json, read_json]
    rw [getKey_setKey_self]
    rfl
  have hkey : getKey (serializeStore st.heap (setKey st.data u s)) u =
      some (derefSession st.heap s) := by
    rw [serializeStore, getKey_map_snd, getKey_setKey_self]
    rfl
  obtain ⟨so, hso, hderef⟩ := loadStore_spec
    (serializeStore st.heap (setKey st.data u s)) (save_session st u s).heap u
    (derefSession st.heap s) hkey
  simp only [loadBank, hdoc, get_session, hso]
  exact hderef

/-- Claim C10: `get_session` leaves the store mapping and the backing file
unchanged, and for an absent user returns the fresh default session
(empty preferences, no trips) without inserting it into the store. -/
theorem C10_get_session_readonly (st : TBState) (u : String) :
    ((get_session st u).2.data = st.data ∧ (get_session st u).2.fs = st.fs
      ∧ (get_session st u).2.path = st.path)
    ∧ (getKey st.data u = none →
        heapRead (get_session st u).2.heap (get_session st u).1.prefsRef = []
        ∧ (get_session st u).1.trips = []
        ∧ getKey (get_session st u).2.data u = none) := by
  cases hk : getKey st.data u with
  | some s =>
    refine ⟨⟨?_, ?_, ?_⟩, fun hnone => by simp [hk] at hnone⟩ <;> simp [get_session, hk]
  | none =>
    refine ⟨⟨?_, ?_, ?_⟩, fun _ => ?_⟩ <;> simp only [get_session, hk]
    exact ⟨heapRead_heapAlloc_last st.heap [], trivial, trivial⟩

/-- Instance of claim C10 on a fresh state with no stored users. -/
theorem C10_witness :
    getKey (emptyState "p").data "u" = none
    ∧ (heapRead (get_session (emptyState "p") "u").2.heap
        (get_session (emptyState "p") "u").1.prefsRef = []
      ∧ (get_session (emptyState "p") "u").1.trips = []
      ∧ getKey (get_session (emptyState "p") "u").2.data "u" = none) :=
  ⟨rfl, (C10_get_session_readonly (emptyState "p") "u").2 rfl⟩

end TravelBuddy
